import Mathlib

/-!
# Verification of the movies-tv playlist pipeline

Shallow embedding of the pure core of the repository:

* `src/export.ts` — M3U serialization (`generateM3UContent`, `groupItemsByCategory`,
  `getSortedGroupNames`, `generateGroupSection`, `generateExtinfLine`);
* `src/main.ts` — `cleanMovieTitle` (a pipeline of five JavaScript regex
  replacements followed by `trim`) and `processMovie`;
* `src/Scraper/nunflix-puppeteer.ts` — `getAvailableGenres`, `extractMovies`,
  `extractCardData`, `resolveM3U8FromEmbed`.

Strings are modelled as Lean `String` / `List Char`.  JavaScript string
truthiness (`''` is falsy) is modelled by comparison with the empty string;
optional string fields are modelled as `String` with `""` standing for an
absent (`undefined`) value, which has the same truthiness.  `localeCompare`
of the default locale is modelled as code-point order on strings (for the
ASCII group names the program produces, the two orders agree).
-/

/-- `M3UItem` from `src/export.ts`: one exportable playlist record.
`description?` is optional in the source; `""` models an absent value
(both are falsy in the serializer's tests). -/
structure M3UItem where
  title : String
  logo : String
  group : String
  streamUrl : String
  description : String
deriving Repr, DecidableEq

/-- The JavaScript whitespace class: the character set matched by `\s` and
removed by `String.prototype.trim`. -/
def jsSpace (c : Char) : Bool :=
  c == ' ' || c == '\t' || c == '\n' || c == '\r' || c == '\x0b' || c == '\x0c' ||
  c == '\u00A0' || c == '\u1680' || ('\u2000' ≤ c && c ≤ '\u200A') ||
  c == '\u2028' || c == '\u2029' || c == '\u202F' || c == '\u205F' ||
  c == '\u3000' || c == '\uFEFF'

/-- Drop trailing JavaScript whitespace. -/
def dropTrailWs : List Char → List Char
  | [] => []
  | c :: cs =>
    match dropTrailWs cs with
    | [] => if jsSpace c then [] else [c]
    | d :: rest => c :: d :: rest

/-- JavaScript `String.prototype.trim` on character lists: drop leading and
trailing whitespace. -/
def trimJs (cs : List Char) : List Char :=
  dropTrailWs (cs.dropWhile jsSpace)

/-- One step of the `reduce` in `groupItemsByCategory` (`src/export.ts`):
append `item` to the bucket of its group, creating the bucket at the end
if the group is new (JavaScript objects preserve insertion order of keys). -/
def insertGrouped (acc : List (String × List M3UItem)) (item : M3UItem) :
    List (String × List M3UItem) :=
  match acc with
  | [] => [(item.group, [item])]
  | (g, xs) :: rest =>
    if g == item.group then (g, xs ++ [item]) :: rest
    else (g, xs) :: insertGrouped rest item

/-- `groupItemsByCategory` (`src/export.ts`): partition items by their `group`
field, keys in first-seen order, each bucket in insertion order. -/
def groupItemsByCategory (items : List M3UItem) : List (String × List M3UItem) :=
  items.foldl insertGrouped []

/-- Bucket lookup `groupedItems[groupName]` (defaulting to the empty list). -/
def lookupGroup (grouped : List (String × List M3UItem)) (g : String) : List M3UItem :=
  (grouped.lookup g).getD []

/-- The comparator of `getSortedGroupNames` (`src/export.ts`) as a `≤`-style
relation on distinct group names: `"Trending Movies"` sorts before everything,
all other names compare by `localeCompare`, modelled as code-point order. -/
def groupLe (a b : String) : Prop :=
  a = "Trending Movies" ∨ (b ≠ "Trending Movies" ∧ a ≤ b)

instance decGroupLe : DecidableRel groupLe := fun a b =>
  show Decidable (a = "Trending Movies" ∨ (b ≠ "Trending Movies" ∧ a ≤ b)) from
    inferInstance

instance instGroupLeTotal : IsTotal String groupLe := by
  constructor
  intro a b
  by_cases ha : a = "Trending Movies"
  · exact Or.inl (Or.inl ha)
  · by_cases hb : b = "Trending Movies"
    · exact Or.inr (Or.inl hb)
    · rcases le_total a b with h | h
      · exact Or.inl (Or.inr ⟨hb, h⟩)
      · exact Or.inr (Or.inr ⟨ha, h⟩)

instance instGroupLeTrans : IsTrans String groupLe := by
  constructor
  intro a b c hab hbc
  rcases hab with ha | ⟨hb, hab⟩
  · exact Or.inl ha
  · rcases hbc with hb' | ⟨hc, hbc⟩
    · exact absurd hb' hb
    · exact Or.inr ⟨hc, le_trans hab hbc⟩

instance instGroupLeAntisymm : IsAntisymm String groupLe := by
  constructor
  intro a b hab hba
  rcases hab with ha | ⟨hb, hab⟩
  · rcases hba with hb' | ⟨ha', _⟩
    · exact ha.trans hb'.symm
    · exact absurd ha ha'
  · rcases hba with hb' | ⟨_, hba⟩
    · exact absurd hb' hb
    · exact le_antisymm hab hba

/-- `getSortedGroupNames` (`src/export.ts`): the object's keys sorted with
`"Trending Movies"` first and all other names in `localeCompare` order
(modelled as code-point order).  `Array.prototype.sort` with this comparator
on the distinct keys produces exactly the `groupLe`-sorted permutation. -/
def getSortedGroupNames (grouped : List (String × List M3UItem)) : List String :=
  (grouped.map Prod.fst).insertionSort groupLe

/-- `generateExtinfLine` (`src/export.ts`): the `#EXTINF` line of one item,
with the source's truthiness tests on `title`, `logo`, `group`, `description`. -/
def generateExtinfLine (item : M3UItem) : String :=
  let title := if item.title == "" then "Unknown Title" else item.title
  let logo := if item.logo == "" then "" else "tvg-logo=\"" ++ item.logo ++ "\" "
  let group := if item.group == "" then "" else "group-title=\"" ++ item.group ++ "\""
  let description := if item.description == "" then "" else " - " ++ item.description
  "#EXTINF:-1 " ++ logo ++ group ++ ", " ++ title ++ description

/-- `generateGroupSection` (`src/export.ts`): banner line with the item count,
then per item its EXTINF line, stream URL and a blank line, then one more
newline. -/
def generateGroupSection (groupName : String) (items : List M3UItem) : String :=
  let banner := "# " ++ groupName ++ " (" ++ toString items.length ++ " items)\n"
  (items.foldl (fun s item =>
    s ++ (generateExtinfLine item ++ "\n" ++ item.streamUrl ++ "\n\n")) banner) ++ "\n"

/-- `generateM3UContent` (`src/export.ts`): header, then the group sections in
sorted group order, finally `trim`med (JavaScript `trim`, modelled by `trimJs`
over the character list). -/
def generateM3UContent (items : List M3UItem) : String :=
  let groupedItems := groupItemsByCategory items
  let sortedGroups := getSortedGroupNames groupedItems
  String.mk (trimJs (sortedGroups.foldl
    (fun c g => c ++ generateGroupSection g (lookupGroup groupedItems g))
    "#EXTM3U\n\n").data)

/-- `GenreInfo` from `src/Scraper/nunflix-puppeteer.ts`. -/
structure GenreInfo where
  name : String
  buttonText : String
deriving Repr, DecidableEq

/-- `getAvailableGenres` (`src/Scraper/nunflix-puppeteer.ts`): the function
performs no browser or network access and returns this constant list. -/
def getAvailableGenres : List GenreInfo :=
  [⟨"Action", "Action"⟩, ⟨"Adventure", "Adventure"⟩, ⟨"Animation", "Animation"⟩,
   ⟨"Comedy", "Comedy"⟩, ⟨"Crime", "Crime"⟩, ⟨"Drama", "Drama"⟩,
   ⟨"Family", "Family"⟩, ⟨"Fantasy", "Fantasy"⟩, ⟨"History", "History"⟩,
   ⟨"Horror", "Horror"⟩, ⟨"Music", "Music"⟩, ⟨"Mystery", "Mystery"⟩,
   ⟨"Romance", "Romance"⟩, ⟨"Science Fiction", "Science Fiction"⟩,
   ⟨"Thriller", "Thriller"⟩, ⟨"War", "War"⟩, ⟨"Western", "Western"⟩]

/-- The emptiness test guarding the `'No genres found'` fallback branch of
`processAllGenres` (`src/main.ts`). -/
def genresFallbackTaken : Bool := getAvailableGenres.length == 0

/-- The `#EXTINF` line shape asserted by claim C9, written from the claim's
words: the `tvg-logo` attribute appears exactly when the logo is non-empty,
the `group-title` attribute exactly when the group is non-empty, and an empty
title is replaced by `Unknown Title`. -/
def extinfLineSpec (item : M3UItem) : String :=
  "#EXTINF:-1 "
    ++ (if item.logo ≠ "" then "tvg-logo=\"" ++ item.logo ++ "\" " else "")
    ++ (if item.group ≠ "" then "group-title=\"" ++ item.group ++ "\"" else "")
    ++ ", "
    ++ (if item.title = "" then "Unknown Title" else item.title)
    ++ (if item.description ≠ "" then " - " ++ item.description else "")

/-- C9: in the EXTINF line generated for an item, the `tvg-logo` attribute is
present if and only if the item's logo field is non-empty, the `group-title`
attribute is present if and only if the group field is non-empty, and an empty
or missing title is replaced by the literal text `Unknown Title`. -/
theorem generateExtinfLine_attribute_presence (item : M3UItem) :
    generateExtinfLine item = extinfLineSpec item := by
  unfold generateExtinfLine extinfLineSpec
  by_cases ht : item.title = "" <;> by_cases hl : item.logo = "" <;>
    by_cases hg : item.group = "" <;> by_cases hd : item.description = "" <;>
    simp [ht, hl, hg, hd]

/-- C10: `getAvailableGenres` always returns the same fixed list of 17 genre
descriptors (Action through Western), each with `name` equal to `buttonText`;
the list is non-empty, so the orchestrator's `'no genres found'` fallback
branch is unreachable. -/
theorem getAvailableGenres_fixed_constant :
    getAvailableGenres.length = 17 ∧
    (getAvailableGenres.map GenreInfo.name) =
      ["Action", "Adventure", "Animation", "Comedy", "Crime", "Drama", "Family",
       "Fantasy", "History", "Horror", "Music", "Mystery", "Romance",
       "Science Fiction", "Thriller", "War", "Western"] ∧
    (∀ g ∈ getAvailableGenres, g.name = g.buttonText) ∧
    getAvailableGenres ≠ [] ∧
    genresFallbackTaken = false := by
  refine ⟨rfl, rfl, ?_, by decide, rfl⟩
  decide

/-- C2: for every input list of playlist entries, the serialized output orders
groups so that the literal group name `"Trending Movies"` comes first and
every other group follows in lexicographic (code-point) order by name. -/
theorem m3u_group_order_trending_first_then_lex (items : List M3UItem) :
    (getSortedGroupNames (groupItemsByCategory items)).Sorted groupLe ∧
    ("Trending Movies" ∈ getSortedGroupNames (groupItemsByCategory items) →
      (getSortedGroupNames (groupItemsByCategory items)).head? = some "Trending Movies") ∧
    ((getSortedGroupNames (groupItemsByCategory items)).filter
        (fun g => g ≠ "Trending Movies")).Sorted (· ≤ ·) := by
  have hsorted : (getSortedGroupNames (groupItemsByCategory items)).Sorted groupLe :=
    List.sorted_insertionSort groupLe _
  refine ⟨hsorted, ?_, ?_⟩
  · intro hmem
    cases hnames : getSortedGroupNames (groupItemsByCategory items) with
    | nil => rw [hnames] at hmem; exact absurd hmem (List.not_mem_nil _)
    | cons x rest =>
      rw [hnames] at hmem hsorted
      rcases List.mem_cons.mp hmem with h | h
      · rw [h]; rfl
      · have hx : groupLe x "Trending Movies" :=
          (List.sorted_cons.mp hsorted).1 _ h
        rcases hx with hx | ⟨habs, _⟩
        · rw [hx]; rfl
        · exact absurd rfl habs
  · have hpair : ((getSortedGroupNames (groupItemsByCategory items)).filter
        (fun g => g ≠ "Trending Movies")).Pairwise groupLe :=
      List.Pairwise.sublist (List.filter_sublist _) hsorted
    refine List.Pairwise.imp_of_mem ?_ hpair
    intro a b ha _ hab
    have ha' : a ≠ "Trending Movies" := by
      have := List.of_mem_filter ha
      simpa using this
    rcases hab with h | ⟨_, h⟩
    · exact absurd h ha'
    · exact h

/-- Witness for C2 at a concrete input: two groups plus the trending group. -/
theorem m3u_group_order_witness :
    (getSortedGroupNames (groupItemsByCategory
      [⟨"t1", "", "Drama", "u1", ""⟩, ⟨"t2", "", "Trending Movies", "u2", ""⟩,
       ⟨"t3", "", "Action", "u3", ""⟩])).head? = some "Trending Movies" :=
  (m3u_group_order_trending_first_then_lex
    [⟨"t1", "", "Drama", "u1", ""⟩, ⟨"t2", "", "Trending Movies", "u2", ""⟩,
     ⟨"t3", "", "Action", "u3", ""⟩]).2.1 (by decide)

theorem str_append_assoc (a b c : String) : a ++ b ++ c = a ++ (b ++ c) := by
  apply String.ext
  simp

theorem lookupGroup_cons (k : String) (v : List M3UItem)
    (tl : List (String × List M3UItem)) (g : String) :
    lookupGroup ((k, v) :: tl) g = if g = k then v else lookupGroup tl g := by
  by_cases h : g = k
  · subst h
    simp [lookupGroup, List.lookup]
  · simp [lookupGroup, List.lookup, h, beq_false_of_ne h]

theorem lookupGroup_insertGrouped (acc : List (String × List M3UItem)) (it : M3UItem)
    (g : String) :
    lookupGroup (insertGrouped acc it) g =
      if it.group = g then lookupGroup acc g ++ [it] else lookupGroup acc g := by
  induction acc with
  | nil =>
    have e : insertGrouped [] it = [(it.group, [it])] := rfl
    rw [e, lookupGroup_cons]
    by_cases h : g = it.group
    · subst h
      simp [lookupGroup, List.lookup]
    · have h2 : ¬ it.group = g := fun hh => h hh.symm
      simp [h, h2, lookupGroup, List.lookup]
  | cons hd tl ih =>
    obtain ⟨k, xs⟩ := hd
    by_cases hk : k = it.group
    · have e : insertGrouped ((k, xs) :: tl) it = (k, xs ++ [it]) :: tl := by
        simp [insertGrouped, hk]
      rw [e, lookupGroup_cons, lookupGroup_cons]
      by_cases hg : g = k
      · have hig : it.group = g := (hg.trans hk).symm
        simp [hg, hig]
      · have hig : ¬ it.group = g := fun hh => hg (hh.symm.trans hk.symm)
        simp [hg, hig]
    · have e : insertGrouped ((k, xs) :: tl) it = (k, xs) :: insertGrouped tl it := by
        simp [insertGrouped, hk]
      rw [e, lookupGroup_cons, ih, lookupGroup_cons]
      by_cases hg : g = k
      · have hig : ¬ it.group = k := fun hh => hk hh.symm
        simp [hg, hig]
      · simp [hg]

theorem lookupGroup_foldl (xs : List M3UItem) (acc : List (String × List M3UItem))
    (g : String) :
    lookupGroup (xs.foldl insertGrouped acc) g =
      lookupGroup acc g ++ xs.filter (fun i => i.group == g) := by
  induction xs generalizing acc with
  | nil => simp
  | cons x xs ih =>
    simp only [List.foldl_cons, ih, lookupGroup_insertGrouped, List.filter_cons]
    by_cases h : x.group = g <;> simp [h, List.append_assoc]

theorem lookupGroup_eq_filter (xs : List M3UItem) (g : String) :
    lookupGroup (groupItemsByCategory xs) g = xs.filter (fun i => i.group == g) := by
  simpa [lookupGroup, List.lookup] using lookupGroup_foldl xs [] g

theorem keys_insertGrouped (acc : List (String × List M3UItem)) (it : M3UItem) :
    (insertGrouped acc it).map Prod.fst =
      if it.group ∈ acc.map Prod.fst then acc.map Prod.fst
      else acc.map Prod.fst ++ [it.group] := by
  induction acc with
  | nil => simp [insertGrouped]
  | cons hd tl ih =>
    obtain ⟨k, xs⟩ := hd
    by_cases hk : k = it.group
    · subst hk
      simp [insertGrouped]
    · have hk2 : ¬ it.group = k := fun hh => hk hh.symm
      have e : insertGrouped ((k, xs) :: tl) it = (k, xs) :: insertGrouped tl it := by
        simp [insertGrouped, hk]
      rw [e]
      by_cases hmem : it.group ∈ tl.map Prod.fst
      · simp [ih, hmem, hk2]
      · simp [ih, hmem, hk2]

theorem keys_nodup_insertGrouped (acc : List (String × List M3UItem)) (it : M3UItem)
    (h : (acc.map Prod.fst).Nodup) :
    ((insertGrouped acc it).map Prod.fst).Nodup := by
  rw [keys_insertGrouped]
  split
  · exact h
  · next hmem =>
    exact List.Nodup.append h (List.nodup_singleton _) (by simpa using hmem)

theorem mem_keys_insertGrouped (acc : List (String × List M3UItem)) (it : M3UItem)
    (g : String) :
    g ∈ (insertGrouped acc it).map Prod.fst ↔ g ∈ acc.map Prod.fst ∨ g = it.group := by
  rw [keys_insertGrouped]
  split
  · next hmem =>
    exact ⟨Or.inl, fun h => h.elim id (fun e => e ▸ hmem)⟩
  · simp

theorem keys_nodup_foldl (xs : List M3UItem) (acc : List (String × List M3UItem))
    (h : (acc.map Prod.fst).Nodup) :
    ((xs.foldl insertGrouped acc).map Prod.fst).Nodup := by
  induction xs generalizing acc with
  | nil => exact h
  | cons x xs ih => exact ih _ (keys_nodup_insertGrouped acc x h)

theorem keys_nodup (xs : List M3UItem) :
    ((groupItemsByCategory xs).map Prod.fst).Nodup :=
  keys_nodup_foldl xs [] (by simp)

theorem mem_keys_foldl (xs : List M3UItem) (acc : List (String × List M3UItem))
    (g : String) :
    g ∈ (xs.foldl insertGrouped acc).map Prod.fst ↔
      g ∈ acc.map Prod.fst ∨ ∃ i ∈ xs, i.group = g := by
  induction xs generalizing acc with
  | nil => simp
  | cons x xs ih =>
    rw [List.foldl_cons, ih, mem_keys_insertGrouped]
    constructor
    · rintro ((h | h) | ⟨i, hi, hig⟩)
      · exact Or.inl h
      · exact Or.inr ⟨x, by simp, h.symm⟩
      · exact Or.inr ⟨i, by simp [hi], hig⟩
    · rintro (h | ⟨i, hi, hig⟩)
      · exact Or.inl (Or.inl h)
      · rcases List.mem_cons.mp hi with rfl | hi'
        · exact Or.inl (Or.inr hig.symm)
        · exact Or.inr ⟨i, hi', hig⟩

theorem mem_keys (xs : List M3UItem) (g : String) :
    g ∈ (groupItemsByCategory xs).map Prod.fst ↔ ∃ i ∈ xs, i.group = g := by
  rw [groupItemsByCategory, mem_keys_foldl]
  simp

/-- C1 counterexample: two distinct entries of the same group, swapped in the
input array, serialize to different bytes — the serializer preserves insertion
order within a group, so export is not invariant under arbitrary reordering of
a fixed multiset of entries. -/
theorem export_order_dependent_within_group :
    generateM3UContent [⟨"A", "", "G", "uA", ""⟩, ⟨"B", "", "G", "uB", ""⟩] ≠
      generateM3UContent [⟨"B", "", "G", "uB", ""⟩, ⟨"A", "", "G", "uA", ""⟩] := by
  decide

/-- C1 (amended): the serialized output is invariant under exactly those
reorderings of the input array that preserve the relative order of entries
within each group: if two entry lists have the same per-group subsequences,
they serialize to the same bytes (group order itself is canonical, so
reordering across groups never matters). -/
theorem generateM3UContent_depends_only_on_group_subsequences
    (xs ys : List M3UItem)
    (h : ∀ g : String,
      xs.filter (fun i => i.group == g) = ys.filter (fun i => i.group == g)) :
    generateM3UContent xs = generateM3UContent ys := by
  have hkeys : ∀ g, g ∈ (groupItemsByCategory xs).map Prod.fst ↔
      g ∈ (groupItemsByCategory ys).map Prod.fst := by
    intro g
    rw [mem_keys, mem_keys]
    constructor
    · rintro ⟨i, hi, hig⟩
      have hmem : i ∈ ys.filter (fun i => i.group == g) := by
        rw [← h g]
        simp [List.mem_filter, hi, hig]
      have := List.mem_filter.mp hmem
      exact ⟨i, this.1, by simpa using this.2⟩
    · rintro ⟨i, hi, hig⟩
      have hmem : i ∈ xs.filter (fun i => i.group == g) := by
        rw [h g]
        simp [List.mem_filter, hi, hig]
      have := List.mem_filter.mp hmem
      exact ⟨i, this.1, by simpa using this.2⟩
  have hperm : List.Perm ((groupItemsByCategory xs).map Prod.fst)
      ((groupItemsByCategory ys).map Prod.fst) :=
    (List.perm_ext_iff_of_nodup (keys_nodup xs) (keys_nodup ys)).mpr hkeys
  have hsortEq : getSortedGroupNames (groupItemsByCategory xs) =
      getSortedGroupNames (groupItemsByCategory ys) := by
    unfold getSortedGroupNames
    refine List.eq_of_perm_of_sorted ?_ (List.sorted_insertionSort groupLe _)
      (List.sorted_insertionSort groupLe _)
    exact ((List.perm_insertionSort groupLe _).trans hperm).trans
      (List.perm_insertionSort groupLe _).symm
  unfold generateM3UContent
  dsimp only
  rw [hsortEq]
  congr 2
  apply congrArg String.data
  apply List.foldl_ext
  intro c g hg
  rw [lookupGroup_eq_filter, lookupGroup_eq_filter, h g]

/-- Witness for C1 (amended): two entries in different groups swapped across
groups serialize identically. -/
theorem generateM3UContent_group_subseq_witness :
    generateM3UContent [⟨"A", "", "GA", "uA", ""⟩, ⟨"B", "", "GB", "uB", ""⟩] =
      generateM3UContent [⟨"B", "", "GB", "uB", ""⟩, ⟨"A", "", "GA", "uA", ""⟩] := by
  refine generateM3UContent_depends_only_on_group_subsequences _ _ ?_
  intro g
  by_cases hA : ("GA" : String) = g <;> by_cases hB : ("GB" : String) = g
  · exact absurd (hA.trans hB.symm) (by decide)
  · simp [List.filter_cons, hA, hB]
  · simp [List.filter_cons, hA, hB]
  · simp [List.filter_cons, hA, hB]

/-- Concatenation of per-item fragments (helper for stating the group-section
layout). -/
def joinMap (f : M3UItem → String) : List M3UItem → String
  | [] => ""
  | x :: xs => f x ++ joinMap f xs

theorem foldl_append_joinMap (f : M3UItem → String) (l : List M3UItem) (a : String) :
    l.foldl (fun s x => s ++ f x) a = a ++ joinMap f l := by
  induction l generalizing a with
  | nil => simp [joinMap]
  | cons x xs ih =>
    rw [List.foldl_cons, ih, joinMap, ← str_append_assoc]

theorem generateGroupSection_layout (g : String) (items : List M3UItem) :
    generateGroupSection g items =
      "# " ++ g ++ " (" ++ toString items.length ++ " items)\n"
        ++ joinMap (fun i => generateExtinfLine i ++ "\n" ++ i.streamUrl ++ "\n\n") items
        ++ "\n" := by
  unfold generateGroupSection
  dsimp only
  rw [foldl_append_joinMap]

/-- C5 counterexample: for an entry with an empty logo the serializer omits the
`tvg-logo` attribute altogether, so the emitted EXTINF line is not the claimed
template with `<posterUrl>` substituted (here: the empty string). -/
theorem extinf_line_omits_logo_attribute_when_logo_empty :
    generateExtinfLine ⟨"T", "", "G", "u", ""⟩ ≠
      "#EXTINF:-1 tvg-logo=\"\" group-title=\"G\", T" := by
  decide

/-- C5 (amended): for every entry whose logo, group and title are non-empty,
the serializer emits exactly the claimed EXTINF template (with the
` - <Description>` suffix exactly when a description is present), and every
group section is exactly the banner line `# <GroupName> (<count> items)`
followed by, per entry, its EXTINF line, its stream URL line and a blank
line, plus a trailing newline. -/
theorem extinf_and_group_section_layout (it : M3UItem) (g : String) (items : List M3UItem)
    (hl : it.logo ≠ "") (hg : it.group ≠ "") (ht : it.title ≠ "") :
    generateExtinfLine it =
      "#EXTINF:-1 tvg-logo=\"" ++ it.logo ++ "\" group-title=\"" ++ it.group ++ "\", "
        ++ it.title ++ (if it.description ≠ "" then " - " ++ it.description else "") ∧
    generateGroupSection g items =
      "# " ++ g ++ " (" ++ toString items.length ++ " items)\n"
        ++ joinMap (fun i => generateExtinfLine i ++ "\n" ++ i.streamUrl ++ "\n\n") items
        ++ "\n" := by
  constructor
  · simp only [generateExtinfLine, beq_false_of_ne ht, beq_false_of_ne hl, beq_false_of_ne hg,
      Bool.false_eq_true, if_false]
    by_cases hd : it.description = ""
    · simp only [hd, ne_eq, not_true_eq_false, if_false]
      simp only [str_append_assoc]
      rfl
    · simp only [beq_false_of_ne hd, Bool.false_eq_true, if_false, ne_eq, hd,
        not_false_eq_true, if_true]
      simp only [str_append_assoc]
      rfl
  · exact generateGroupSection_layout g items

/-- Witness for C5 (amended) at a concrete entry and a one-entry group. -/
theorem extinf_and_group_section_layout_witness :
    generateExtinfLine ⟨"T", "L", "G", "u", ""⟩ =
      "#EXTINF:-1 tvg-logo=\"" ++ "L" ++ "\" group-title=\"" ++ "G" ++ "\", "
        ++ "T" ++ (if ("" : String) ≠ "" then " - " ++ "" else "") :=
  (extinf_and_group_section_layout ⟨"T", "L", "G", "u", ""⟩ "G" []
    (by decide) (by decide) (by decide)).1

/-- `NunflixMovie` from `src/Scraper/nunflix-puppeteer.ts`; the optional
`quality?` field is modelled as `String` with `""` for an absent value. -/
structure NunflixMovie where
  id : String
  title : String
  poster : String
  detailPage : String
  watchPage : String
  quality : String
deriving Repr, DecidableEq

/-- The metadata record produced by `fetchTMDBInfo`; `src/main.ts` consumes it
only through its `title`, `rating` and `posterUrl` fields (the rating is kept
as its interpolated string). -/
structure TMDBInfo where
  title : String
  rating : String
  posterUrl : String
deriving Repr, DecidableEq

/-- Does the character list start with `needle`? (helper for JavaScript
`String.prototype.includes`). -/
def startsWithList : List Char → List Char → Bool
  | [], _ => true
  | _ :: _, [] => false
  | n :: ns, h :: hs => n == h && startsWithList ns hs

/-- Substring search at every position (helper for `includes`). -/
def containsList (needle : List Char) : List Char → Bool
  | [] => startsWithList needle []
  | h :: hs => startsWithList needle (h :: hs) || containsList needle hs

/-- JavaScript `hay.includes(needle)`. -/
def strContains (hay needle : String) : Bool := containsList needle.data hay.data

/-- `processMovie` (`src/main.ts`): pure model of one item's processing.  The
browser-driven collaborators are oracles: `embedLinks` is the list returned by
`getStreamLinksFromWatchPage`, `resolve` gives `resolveM3U8FromEmbed`'s result
for an embed URL, and `tmdb` is `fetchTMDBInfo`'s result.  The `||`-fallback
chains and the `!m3u8` test mirror the source's string truthiness; the
description joins the quality tag and the rating with the source's literal
separator. -/
def processMovie (movie : NunflixMovie) (groupName : String) (embedLinks : List String)
    (resolve : String → Option String) (tmdb : Option TMDBInfo) : Option M3UItem :=
  match embedLinks.find? (fun link => strContains link "vidfast") with
  | none => none
  | some vidFastLink =>
    match resolve vidFastLink with
    | none => none
    | some m3u8 =>
      if m3u8 == "" then none
      else
        some {
          title := match tmdb with
            | some t => if t.title == "" then movie.title else t.title
            | none => movie.title
          logo := match tmdb with
            | some t => if t.posterUrl == "" then
                (if movie.poster == "" then "" else movie.poster)
              else t.posterUrl
            | none => if movie.poster == "" then "" else movie.poster
          group := groupName
          streamUrl := m3u8
          description := String.intercalate " â€¢ "
            ((if movie.quality == "" then [] else [movie.quality]) ++
              (match tmdb with
               | some t => if t.rating == "" then [] else ["IMDb " ++ t.rating]
               | none => [])) }

/-- C6: a playlist entry is produced only if a stream URL was resolved:
`processMovie` returns `none` when there are no embed candidates or when no
embed resolves to a stream, and every returned entry carries a non-empty
stream URL that one of the embeds resolved to. -/
theorem processMovie_requires_resolved_stream (movie : NunflixMovie) (groupName : String)
    (embedLinks : List String) (resolve : String → Option String) (tmdb : Option TMDBInfo) :
    (embedLinks = [] → processMovie movie groupName embedLinks resolve tmdb = none) ∧
    ((∀ l ∈ embedLinks, resolve l = none) →
      processMovie movie groupName embedLinks resolve tmdb = none) ∧
    (∀ it, processMovie movie groupName embedLinks resolve tmdb = some it →
      it.streamUrl ≠ "" ∧ ∃ l ∈ embedLinks, resolve l = some it.streamUrl) := by
  refine ⟨?_, ?_, ?_⟩
  · intro h
    subst h
    rfl
  · intro h
    unfold processMovie
    cases hfind : embedLinks.find? (fun link => strContains link "vidfast") with
    | none => rfl
    | some v =>
      have hv : v ∈ embedLinks := List.mem_of_find?_eq_some hfind
      dsimp only
      rw [h v hv]
  · intro it hit
    unfold processMovie at hit
    cases hfind : embedLinks.find? (fun link => strContains link "vidfast") with
    | none => rw [hfind] at hit; exact absurd hit (by simp)
    | some v =>
      rw [hfind] at hit
      dsimp only at hit
      cases hres : resolve v with
      | none => rw [hres] at hit; exact absurd hit (by simp)
      | some m3u8 =>
        rw [hres] at hit
        dsimp only at hit
        by_cases hm : (m3u8 == "") = true
        · rw [if_pos hm] at hit
          exact absurd hit (by simp)
        · rw [if_neg hm] at hit
          have hv : v ∈ embedLinks := List.mem_of_find?_eq_some hfind
          have hrec := Option.some_inj.mp hit
          have hstream : it.streamUrl = m3u8 := by rw [← hrec]
          constructor
          · rw [hstream]
            intro hc
            exact hm (by simp [hc])
          · exact ⟨v, hv, by rw [hres, hstream]⟩

/-- Witness for C6 at concrete inputs: no embed candidates means no entry. -/
theorem processMovie_requires_resolved_stream_witness :
    processMovie ⟨"1", "T", "", "d", "w", ""⟩ "Trending Movies" [] (fun _ => none) none
      = none :=
  (processMovie_requires_resolved_stream ⟨"1", "T", "", "d", "w", ""⟩ "Trending Movies"
    [] (fun _ => none) none).1 rfl

/-- `resolveM3U8FromEmbed` (`src/Scraper/nunflix-puppeteer.ts`, current
version): the oracle `requests` is the sequence of outgoing request URLs
intercepted in the page session, in order.  Each URL containing `.m3u8`
overwrites `m3u8Url`; navigation and interaction failures are caught inside
the function, so the same fold also models a failed navigation (only the
requests observed before the failure occur in the list) and the function
always returns rather than throwing. -/
def resolveM3U8FromEmbed (requests : List String) : Option String :=
  requests.foldl (fun acc url => if strContains url ".m3u8" then some url else acc) none

/-- The retry loop of the earlier `resolveM3U8FromEmbed` variant in the same
file (attempts `0, 1, …, maxAttempts-1`, the first non-null result is
returned, `null` after exhausting `maxAttempts`). -/
def resolveM3U8Retry (perAttempt : Nat → Option String) (maxAttempts : Nat) : Option String :=
  (List.range maxAttempts).foldl
    (fun acc i =>
      match acc with
      | some u => some u
      | none => perAttempt i) none

theorem resolve_foldl_acc (l : List String) (acc : Option String)
    (h : ∀ u ∈ l, strContains u ".m3u8" = false) :
    l.foldl (fun acc url => if strContains url ".m3u8" then some url else acc) acc = acc := by
  induction l generalizing acc with
  | nil => rfl
  | cons x xs ih =>
    rw [List.foldl_cons, h x (List.mem_cons_self x xs)]
    exact ih acc (fun u hu => h u (List.mem_cons_of_mem x hu))

/-- C7: for every embed session in which no intercepted outgoing request URL
contains `.m3u8`, the resolver returns `null` — both the current single-shot
version and the earlier bounded retry loop — instead of propagating an
exception; a failed navigation is the special case of a request list cut off
at the failure. -/
theorem resolveM3U8_none_without_manifest_request
    (requests : Nat → List String) (maxAttempts : Nat)
    (h : ∀ i, ∀ u ∈ requests i, strContains u ".m3u8" = false) :
    resolveM3U8FromEmbed (requests 0) = none ∧
    resolveM3U8Retry (fun i => resolveM3U8FromEmbed (requests i)) maxAttempts = none := by
  constructor
  · exact resolve_foldl_acc (requests 0) none (h 0)
  · unfold resolveM3U8Retry
    have hgen : ∀ (l : List Nat),
        l.foldl (fun acc i =>
          match acc with
          | some u => some u
          | none => resolveM3U8FromEmbed (requests i)) none = none := by
      intro l
      induction l with
      | nil => rfl
      | cons x xs ih =>
        rw [List.foldl_cons]
        have hx : resolveM3U8FromEmbed (requests x) = none :=
          resolve_foldl_acc (requests x) none (h x)
        simp only [hx]
        exact ih
    exact hgen (List.range maxAttempts)

/-- Witness for C7: a session whose only request is a non-manifest URL. -/
theorem resolveM3U8_none_witness :
    resolveM3U8FromEmbed ((fun _ => ["https://example.com/video.mp4"]) 0) = none :=
  (resolveM3U8_none_without_manifest_request (fun _ => ["https://example.com/video.mp4"]) 2
    (by
      intro i u hu
      rcases List.mem_singleton.mp hu with rfl
      decide)).1

/-- JavaScript line terminators (not matched by `.` in a regex without the `s`
flag). -/
def isLineTerm (c : Char) : Bool :=
  c == '\n' || c == '\r' || c == '\u2028' || c == '\u2029'

/-- Anchored test for the title-cleanup regex `/\s*\d{4}.*$/` of
`extractCardData` (`src/Scraper/nunflix-puppeteer.ts`): at this position,
optional whitespace, four digits, then only non-line-terminator characters up
to the end of the string (`$` without the `m` flag). -/
def yearMatchAt (cs : List Char) : Bool :=
  match cs.dropWhile jsSpace with
  | a :: b :: c :: d :: r =>
    a.isDigit && b.isDigit && c.isDigit && d.isDigit && r.all (fun x => !(isLineTerm x))
  | _ => false

/-- `rawTitle.replace(/\s*\d{4}.*$/, '')`: delete from the leftmost match
position to the end of the string. -/
def stripTrailingYear : List Char → List Char
  | [] => []
  | c :: cs => if yearMatchAt (c :: cs) then [] else c :: stripTrailingYear cs

/-- Consume a literal pattern prefix. -/
def consumeLit : List Char → List Char → Option (List Char)
  | [], cs => some cs
  | p :: ps, c :: cs => if p == c then consumeLit ps cs else none
  | _ :: _, [] => none

/-- Anchored match of `/\/movie\/(\d+)/`: the literal `/movie/` followed by at
least one digit; the captured group is the maximal digit run. -/
def matchMoviePathAt (cs : List Char) : Option String :=
  match consumeLit "/movie/".data cs with
  | none => none
  | some r =>
    match r.takeWhile Char.isDigit with
    | [] => none
    | ds => some (String.mk ds)

/-- `href.match(/\/movie\/(\d+)/)`: the captured digits of the leftmost
occurrence. -/
def parseMovieId : List Char → Option String
  | [] => none
  | c :: cs =>
    match matchMoviePathAt (c :: cs) with
    | some id => some id
    | none => parseMovieId cs

/-- The raw DOM data of one movie card, as read by `extractCardData`
(`src/Scraper/nunflix-puppeteer.ts`): `href` may be absent
(`getAttribute` returning null), the title defaults to `""` on failure, the
poster and quality default to `""` when their extraction fails. -/
structure CardData where
  href : Option String
  rawTitle : String
  poster : String
  quality : String
deriving Repr, DecidableEq

/-- `extractCardData` (`src/Scraper/nunflix-puppeteer.ts`): returns null
without an identifier-bearing href, otherwise builds the `NunflixMovie` with
the cleaned title and derived URLs. -/
def extractCardData (card : CardData) : Option NunflixMovie :=
  match card.href with
  | none => none
  | some href =>
    match parseMovieId href.data with
    | none => none
    | some id =>
      some {
        id := id
        title := String.mk (trimJs (stripTrailingYear card.rawTitle.data))
        poster := card.poster
        detailPage := "https://nunflix.org" ++ href
        watchPage := "https://nunflix.org/watch/movie/" ++ id
        quality := card.quality }

/-- The card loop of `extractMovies` (`src/Scraper/nunflix-puppeteer.ts`):
an oracle entry of `none` models a card whose extraction threw or hit the
per-card timeout; a valid movie is appended and the loop breaks once the
accumulated count reaches `limit`. -/
def extractGo (limit : Nat) : List (Option CardData) → List NunflixMovie → List NunflixMovie
  | [], movies => movies
  | c :: cs, movies =>
    match c with
    | none => extractGo limit cs movies
    | some card =>
      match extractCardData card with
      | none => extractGo limit cs movies
      | some m =>
        if m.id ≠ "" then
          if (movies ++ [m]).length ≥ limit then movies ++ [m]
          else extractGo limit cs (movies ++ [m])
        else extractGo limit cs movies

/-- `extractMovies` (`src/Scraper/nunflix-puppeteer.ts`): iterate over at most
`min(cards.length, limit + 10)` cards. -/
def extractMovies (cards : List (Option CardData)) (limit : Nat) : List NunflixMovie :=
  extractGo limit (cards.take (limit + 10)) []

theorem matchMoviePathAt_digits (cs : List Char) (id : String)
    (h : matchMoviePathAt cs = some id) :
    id.data ≠ [] ∧ id.data.all Char.isDigit = true := by
  unfold matchMoviePathAt at h
  cases hc : consumeLit "/movie/".data cs with
  | none => rw [hc] at h; exact absurd h (by simp)
  | some r =>
    rw [hc] at h
    dsimp only at h
    cases hts : r.takeWhile Char.isDigit with
    | nil => rw [hts] at h; exact absurd h (by simp)
    | cons d ds =>
      rw [hts] at h
      dsimp only at h
      have hid : id = String.mk (d :: ds) := (Option.some_inj.mp h).symm
      subst hid
      refine ⟨by simp, ?_⟩
      have hall : ∀ x ∈ d :: ds, Char.isDigit x := by
        intro x hx
        have hx' : x ∈ r.takeWhile Char.isDigit := by rw [hts]; exact hx
        exact List.mem_takeWhile_imp hx'
      simpa [List.all_eq_true] using hall

theorem parseMovieId_digits (cs : List Char) (id : String)
    (h : parseMovieId cs = some id) :
    id.data ≠ [] ∧ id.data.all Char.isDigit = true := by
  induction cs with
  | nil => exact absurd h (by simp [parseMovieId])
  | cons c cs ih =>
    unfold parseMovieId at h
    cases hm : matchMoviePathAt (c :: cs) with
    | some id' =>
      rw [hm] at h
      dsimp only at h
      exact (Option.some_inj.mp h) ▸ matchMoviePathAt_digits _ _ hm
    | none =>
      rw [hm] at h
      dsimp only at h
      exact ih h

theorem extractCardData_digits (card : CardData) (m : NunflixMovie)
    (h : extractCardData card = some m) :
    m.id ≠ "" ∧ m.id.data.all Char.isDigit = true := by
  unfold extractCardData at h
  cases hhref : card.href with
  | none => rw [hhref] at h; exact absurd h (by simp)
  | some href =>
    rw [hhref] at h
    dsimp only at h
    cases hid : parseMovieId href.data with
    | none => rw [hid] at h; exact absurd h (by simp)
    | some id =>
      rw [hid] at h
      dsimp only at h
      have hrec := Option.some_inj.mp h
      have hdig := parseMovieId_digits _ _ hid
      have hmid : m.id = id := by rw [← hrec]
      refine ⟨?_, ?_⟩
      · rw [hmid]
        intro hc
        exact hdig.1 (congrArg String.data hc)
      · rw [hmid]
        exact hdig.2

theorem extractGo_length (limit : Nat) (cs : List (Option CardData))
    (movies : List NunflixMovie) (h : movies.length < limit) :
    (extractGo limit cs movies).length ≤ limit := by
  induction cs generalizing movies with
  | nil => exact Nat.le_of_lt h
  | cons c cs ih =>
    cases c with
    | none => exact ih movies h
    | some card =>
      cases hcd : extractCardData card with
      | none => simp only [extractGo, hcd]; exact ih movies h
      | some m =>
        by_cases hid : m.id ≠ ""
        · simp only [extractGo, hcd, if_pos hid]
          by_cases hlen : (movies ++ [m]).length ≥ limit
          · rw [if_pos hlen]
            simpa using h
          · rw [if_neg hlen]
            exact ih (movies ++ [m]) (Nat.lt_of_not_le (fun hle => hlen hle))
        · simp only [extractGo, hcd, if_neg hid]
          exact ih movies h

theorem extractGo_mem (limit : Nat) (cs : List (Option CardData))
    (movies : List NunflixMovie) (m : NunflixMovie)
    (hm : m ∈ extractGo limit cs movies) :
    m ∈ movies ∨ ∃ card, extractCardData card = some m := by
  induction cs generalizing movies with
  | nil => exact Or.inl hm
  | cons c cs ih =>
    cases c with
    | none => exact ih movies hm
    | some card =>
      cases hcd : extractCardData card with
      | none =>
        simp only [extractGo, hcd] at hm
        exact ih movies hm
      | some m' =>
        by_cases hid : m'.id ≠ ""
        · simp only [extractGo, hcd, if_pos hid] at hm
          by_cases hlen : (movies ++ [m']).length ≥ limit
          · rw [if_pos hlen] at hm
            rcases List.mem_append.mp hm with h1 | h1
            · exact Or.inl h1
            · exact Or.inr ⟨card, by rw [hcd, List.mem_singleton.mp h1]⟩
          · rw [if_neg hlen] at hm
            rcases ih (movies ++ [m']) hm with h1 | h1
            · rcases List.mem_append.mp h1 with h2 | h2
              · exact Or.inl h2
              · exact Or.inr ⟨card, by rw [hcd, List.mem_singleton.mp h2]⟩
            · exact Or.inr h1
        · simp only [extractGo, hcd, if_neg hid] at hm
          exact ih movies hm

/-- C8 counterexample: with `limit = 0` and one valid card, `extractMovies`
still returns one movie — the length check runs only after a push — so the
returned count is not bounded by a non-negative `limit` in general. -/
theorem extractMovies_exceeds_zero_limit :
    ¬ ((extractMovies [some ⟨some "/movie/7", "T", "", ""⟩] 0).length ≤ 0) := by
  decide

/-- C8 (amended): for every limit of at least one, `extractMovies` returns at
most `limit` movies, every returned movie has a non-empty all-digit id parsed
from a `/movie/<digits>` path segment, and a card whose extraction failed or
whose href has no parseable identifier is skipped while extraction of the
remaining cards continues. -/
theorem extractMovies_bounded_valid_and_skipping
    (cards : List (Option CardData)) (limit : Nat) (hpos : 1 ≤ limit) :
    (extractMovies cards limit).length ≤ limit ∧
    (∀ m ∈ extractMovies cards limit, m.id ≠ "" ∧ m.id.data.all Char.isDigit = true) ∧
    (∀ (cs : List (Option CardData)) (acc : List NunflixMovie),
      extractGo limit (none :: cs) acc = extractGo limit cs acc) ∧
    (∀ (card : CardData) (cs : List (Option CardData)) (acc : List NunflixMovie),
      extractCardData card = none →
      extractGo limit (some card :: cs) acc = extractGo limit cs acc) := by
  refine ⟨?_, ?_, ?_, ?_⟩
  · exact extractGo_length limit _ [] (Nat.lt_of_lt_of_le Nat.zero_lt_one hpos)
  · intro m hm
    rcases extractGo_mem limit _ [] m hm with h1 | ⟨card, hcd⟩
    · exact absurd h1 (List.not_mem_nil m)
    · exact extractCardData_digits card m hcd
  · intro cs acc
    rfl
  · intro card cs acc hcd
    simp only [extractGo, hcd]

/-- Witness for C8 (amended) at a concrete card list and limit 1. -/
theorem extractMovies_bounded_witness :
    (extractMovies [some ⟨some "/movie/7", "T", "", ""⟩, none] 1).length ≤ 1 :=
  (extractMovies_bounded_valid_and_skipping [some ⟨some "/movie/7", "T", "", ""⟩, none] 1
    (Nat.le_refl 1)).1

/-- Month-name triples of the regex alternation `(Jan|Feb|…|Dec)` in
`cleanMovieTitle` (`src/main.ts`); every alternative is exactly three
characters, so a month match consumes exactly three characters. -/
def monthTriplesCS : List (Char × Char × Char) :=
  [('J','a','n'), ('F','e','b'), ('M','a','r'), ('A','p','r'), ('M','a','y'), ('J','u','n'),
   ('J','u','l'), ('A','u','g'), ('S','e','p'), ('O','c','t'), ('N','o','v'), ('D','e','c')]

/-- Lower-cased month triples, for the case-insensitive (`/gi`) second
replacement: a text triple matches case-insensitively exactly when its
`toLower` image is one of these. -/
def monthTriplesLower : List (Char × Char × Char) :=
  [('j','a','n'), ('f','e','b'), ('m','a','r'), ('a','p','r'), ('m','a','y'), ('j','u','n'),
   ('j','u','l'), ('a','u','g'), ('s','e','p'), ('o','c','t'), ('n','o','v'), ('d','e','c')]

/-- Case-sensitive month-alternation test at a position (first replacement has
no `i` flag). -/
def isMonthAtCS (a b c : Char) : Bool := monthTriplesCS.contains (a, b, c)

/-- Case-insensitive month-alternation test at a position (second replacement
has the `i` flag). -/
def isMonthAtCI (a b c : Char) : Bool :=
  monthTriplesLower.contains (a.toLower, b.toLower, c.toLower)

/-- Anchored case-sensitive month match, returning the rest of the input. -/
def matchMonthCS : List Char → Option (List Char)
  | a :: b :: c :: r => if isMonthAtCS a b c then some r else none
  | _ => none

/-- Anchored case-insensitive month match. -/
def matchMonthCI : List Char → Option (List Char)
  | a :: b :: c :: r => if isMonthAtCI a b c then some r else none
  | _ => none

/-- Greedy `\s?` with boolean continuation: try consuming one whitespace
character first, fall back to consuming none. -/
def optWsB (k : List Char → Bool) (cs : List Char) : Bool :=
  match cs with
  | c :: rest => if jsSpace c then (k rest || k (c :: rest)) else k (c :: rest)
  | [] => k []

/-- Exactly `n` digits, then the continuation. -/
def digitsB : Nat → (List Char → Bool) → List Char → Bool
  | 0, k, cs => k cs
  | n + 1, k, cs =>
    match cs with
    | c :: rest => c.isDigit && digitsB n k rest
    | [] => false

/-- A literal comma, then the continuation. -/
def commaB (k : List Char → Bool) (cs : List Char) : Bool :=
  match cs with
  | ',' :: rest => k rest
  | _ => false

/-- Tail `,\s?\d{2}` of the first replacement's pattern. -/
def dateTailCS : List Char → Bool :=
  commaB (optWsB (digitsB 2 (fun _ => true)))

/-- Anchored test for `(Jan|…|Dec)\s?\d{1,2},\s?\d{2}` (first replacement,
case-sensitive); greedy `\d{1,2}` tries two digits before one. -/
def dateCS (cs : List Char) : Bool :=
  match matchMonthCS cs with
  | none => false
  | some r => optWsB (fun r1 => digitsB 2 dateTailCS r1 || digitsB 1 dateTailCS r1) r

/-- The class `[a-zA-Z\d]` of the first replacement. -/
def isAlnumJs (c : Char) : Bool := c.isAlpha || c.isDigit

/-- First replacement of `cleanMovieTitle` (`src/main.ts`):
`/([a-zA-Z\d])((Jan|…|Dec)\s?\d{1,2},\s?\d{2})/` (not global) with `'$1 $2'`,
i.e. a single space is inserted after the leftmost alphanumeric character that
is immediately followed by a date pattern; the matched text itself is kept. -/
def attachSpaceFirst : List Char → List Char
  | [] => []
  | c :: cs =>
    if isAlnumJs c && dateCS cs then c :: ' ' :: cs
    else c :: attachSpaceFirst cs

/-- JavaScript `\w` (for `\b` word-boundary tests). -/
def isWordChar (c : Char) : Bool := c.isAlpha || c.isDigit || c == '_'

/-- Word-boundary helper: a `\b` before a word character (every month name
starts with a letter) holds exactly when the preceding character is absent or
not a word character. -/
def boundaryNonWord : Option Char → Bool
  | none => true
  | some c => !(isWordChar c)

/-- Greedy `\s+`: at least one whitespace character, maximally consumed (the
following pattern pieces never match whitespace, so backtracking into the run
cannot succeed). -/
def ws1plus (cs : List Char) : Option (List Char) :=
  match cs with
  | c :: rest => if jsSpace c then some (rest.dropWhile jsSpace) else none
  | [] => none

/-- Exactly `n` digits. -/
def digitN : Nat → List Char → Option (List Char)
  | 0, cs => some cs
  | n + 1, c :: cs => if c.isDigit then digitN n cs else none
  | _ + 1, [] => none

/-- Tail `,\s+\d{2}` of the second replacement's pattern. -/
def commaWsDigits2 (cs : List Char) : Option (List Char) :=
  match cs with
  | ',' :: rest =>
    match ws1plus rest with
    | none => none
    | some r => digitN 2 r
  | _ => none

/-- Part `\s+\d{1,2},\s+\d{2}` after the month in the second replacement;
greedy `\d{1,2}` backtracks from two digits to one when the tail fails. -/
def afterMonthCI (cs : List Char) : Option (List Char) :=
  match ws1plus cs with
  | none => none
  | some r =>
    match (digitN 2 r).bind commaWsDigits2 with
    | some r2 => some r2
    | none => (digitN 1 r).bind commaWsDigits2

/-- Anchored match of `\b(Jan|…|Dec)\s+\d{1,2},\s+\d{2}\b` (second
replacement, `/gi`): `prev` is the character before the position; the final
matched character is always a digit, so the trailing `\b` holds exactly when
the next character is absent or not a word character. -/
def matchDate2At (prev : Option Char) (cs : List Char) : Option (List Char) :=
  if boundaryNonWord prev then
    match matchMonthCI cs with
    | none => none
    | some r =>
      match afterMonthCI r with
      | none => none
      | some r2 => if boundaryNonWord r2.head? then some r2 else none
  else none

/-- Scanner of the global second replacement: at each position try the date
pattern; on a match emit nothing and continue after it (the stand-in `'0'`
records that the last matched character was a digit — only its word-character
status feeds the next boundary test); otherwise emit the character.  The fuel
argument (instantiated with the list length, an upper bound on the number of
steps) keeps the recursion structural. -/
def removeDatesAux : Nat → Option Char → List Char → List Char
  | 0, _, cs => cs
  | _ + 1, _, [] => []
  | fuel + 1, prev, c :: cs =>
    match matchDate2At prev (c :: cs) with
    | some rest => removeDatesAux fuel (some '0') rest
    | none => c :: removeDatesAux fuel (some c) cs

/-- Second replacement of `cleanMovieTitle`:
`/\b(Jan|…|Dec)\s+\d{1,2},\s+\d{2}\b/gi` with `''`. -/
def removeDates (cs : List Char) : List Char :=
  removeDatesAux cs.length none cs

/-- Scanner of the third replacement `/•.*/g` (`''`): after a bullet,
drop every character up to (excluding) the next line terminator — `.` does not
match line terminators — then resume normal scanning. -/
def removeBulletAux : Bool → List Char → List Char
  | _, [] => []
  | true, c :: cs =>
    if isLineTerm c then c :: removeBulletAux false cs
    else removeBulletAux true cs
  | false, c :: cs =>
    if c == '•' then removeBulletAux true cs
    else c :: removeBulletAux false cs

/-- Third replacement of `cleanMovieTitle`: remove each bullet and the rest of
its line. -/
def removeBulletTail (cs : List Char) : List Char := removeBulletAux false cs

/-- Class `[a-z]` of the fourth replacement. -/
def isLowerAZ (c : Char) : Bool := 'a' ≤ c && c ≤ 'z'

/-- Class `[A-Z]` of the fourth replacement. -/
def isUpperAZ (c : Char) : Bool := 'A' ≤ c && c ≤ 'Z'

/-- Fourth replacement of `cleanMovieTitle`: `/([a-z])([A-Z])/g` with
`'$1 $2'`; after a match the scan resumes after the matched pair. -/
def insertCamelSpace : List Char → List Char
  | [] => []
  | [c] => [c]
  | a :: b :: cs =>
    if isLowerAZ a && isUpperAZ b then a :: ' ' :: b :: insertCamelSpace cs
    else a :: insertCamelSpace (b :: cs)

/-- Scanner of the fifth replacement `/\s{2,}/g` (`' '`): a maximal whitespace
run of length at least two is emitted as a single space (`inRun` skips the
rest of the run); a single whitespace character is kept unchanged. -/
def collapseGo : Bool → List Char → List Char
  | _, [] => []
  | inRun, c :: cs =>
    if jsSpace c then
      if inRun then collapseGo true cs
      else
        match cs with
        | d :: _ => if jsSpace d then ' ' :: collapseGo true cs else c :: collapseGo false cs
        | [] => [c]
    else c :: collapseGo false cs

/-- Fifth replacement of `cleanMovieTitle`: collapse whitespace runs. -/
def collapseWs (cs : List Char) : List Char := collapseGo false cs

/-- Whole `cleanMovieTitle` pipeline (`src/main.ts`) on character lists: the
five regex replacements in source order, then `trim`. -/
def cleanChars (cs : List Char) : List Char :=
  trimJs (collapseWs (insertCamelSpace (removeBulletTail (removeDates (attachSpaceFirst cs)))))

/-- `cleanMovieTitle` (`src/main.ts`). -/
def cleanMovieTitle (s : String) : String := String.mk (cleanChars s.data)

/-- No three consecutive characters form a month name (case-insensitively):
under this condition both date replacements find no match anywhere. -/
def monthFree : List Char → Bool
  | a :: b :: c :: r => !(isMonthAtCI a b c) && monthFree (b :: c :: r)
  | _ => true

/-- C4: the spec's normalization examples: the attached date label is split
off and removed, and everything after a bullet delimiter is dropped. -/
theorem cleanMovieTitle_spec_examples :
    cleanMovieTitle "InterstellarNov 5, 24" = "Interstellar" ∧
    cleanMovieTitle "Good•Movie" = "Good" := by
  constructor <;> decide

/-- C3 counterexample: `cleanMovieTitle` is not idempotent.  On
`"xJAN 2, 22"` the first pass only inserts a camel-case space (the
case-sensitive first replacement does not recognise `JAN`, and `xJAN` has no
word boundary before `JAN`), yielding `"x JAN 2, 22"`; the second pass then
removes the now-boundary-delimited case-insensitive date, yielding `"x"`. -/
theorem cleanMovieTitle_not_idempotent_on_date_input :
    cleanMovieTitle (cleanMovieTitle "xJAN 2, 22") ≠ cleanMovieTitle "xJAN 2, 22" := by
  decide

theorem monthFree_tail (c : Char) (cs : List Char) (h : monthFree (c :: cs) = true) :
    monthFree cs = true := by
  cases cs with
  | nil => rfl
  | cons b r =>
    cases r with
    | nil => rfl
    | cons d r2 =>
      simp only [monthFree, Bool.and_eq_true] at h
      exact h.2

theorem matchMonthCI_none (cs : List Char) (h : monthFree cs = true) :
    matchMonthCI cs = none := by
  cases cs with
  | nil => rfl
  | cons a t =>
    cases t with
    | nil => rfl
    | cons b t2 =>
      cases t2 with
      | nil => rfl
      | cons c r =>
        simp only [monthFree, Bool.and_eq_true] at h
        have hm : isMonthAtCI a b c = false := by
          have h1 := h.1
          simpa using h1
        simp only [matchMonthCI, hm, Bool.false_eq_true, if_false]

theorem isMonthAtCS_toCI (a b c : Char) (h : isMonthAtCS a b c = true) :
    isMonthAtCI a b c = true := by
  have h' : (a, b, c) ∈ monthTriplesCS := by
    simpa [isMonthAtCS, List.contains, List.elem_iff] using h
  have hlow : ∀ t ∈ monthTriplesCS,
      (t.1.toLower, t.2.1.toLower, t.2.2.toLower) ∈ monthTriplesLower := by decide
  have hm := hlow _ h'
  simpa [isMonthAtCI, List.contains, List.elem_iff] using hm

theorem matchMonthCS_none (cs : List Char) (h : monthFree cs = true) :
    matchMonthCS cs = none := by
  cases cs with
  | nil => rfl
  | cons a t =>
    cases t with
    | nil => rfl
    | cons b t2 =>
      cases t2 with
      | nil => rfl
      | cons c r =>
        simp only [monthFree, Bool.and_eq_true] at h
        have hci : isMonthAtCI a b c = false := by
          have h1 := h.1
          simpa using h1
        have hcs : isMonthAtCS a b c = false := by
          cases hx : isMonthAtCS a b c with
          | false => rfl
          | true => rw [isMonthAtCS_toCI a b c hx] at hci; exact absurd hci (by simp)
        simp only [matchMonthCS, hcs, Bool.false_eq_true, if_false]

theorem dateCS_false (cs : List Char) (h : monthFree cs = true) : dateCS cs = false := by
  simp only [dateCS, matchMonthCS_none cs h]

theorem attachSpaceFirst_id (cs : List Char) (h : monthFree cs = true) :
    attachSpaceFirst cs = cs := by
  induction cs with
  | nil => rfl
  | cons c cs ih =>
    have ht := monthFree_tail c cs h
    simp only [attachSpaceFirst, dateCS_false cs ht, Bool.and_false, Bool.false_eq_true,
      if_false]
    rw [ih ht]

theorem matchDate2At_none (prev : Option Char) (cs : List Char) (h : monthFree cs = true) :
    matchDate2At prev cs = none := by
  unfold matchDate2At
  rw [matchMonthCI_none cs h]
  split <;> rfl

theorem removeDatesAux_id (fuel : Nat) (prev : Option Char) (cs : List Char)
    (h : monthFree cs = true) : removeDatesAux fuel prev cs = cs := by
  induction fuel generalizing prev cs with
  | zero => rfl
  | succ n ih =>
    cases cs with
    | nil => rfl
    | cons c cs' =>
      simp only [removeDatesAux, matchDate2At_none prev (c :: cs') h]
      rw [ih (some c) cs' (monthFree_tail c cs' h)]

theorem removeDates_id (cs : List Char) (h : monthFree cs = true) : removeDates cs = cs := by
  unfold removeDates
  exact removeDatesAux_id cs.length none cs h

/-- No bullet delimiter occurs in the list. -/
def noBullet (cs : List Char) : Bool := cs.all (fun c => !(c == '•'))

theorem noBullet_removeBulletAux (flag : Bool) (cs : List Char) :
    noBullet (removeBulletAux flag cs) = true := by
  induction cs generalizing flag with
  | nil => cases flag <;> rfl
  | cons c cs ih =>
    cases flag with
    | true =>
      cases hl : isLineTerm c with
      | false => simpa [removeBulletAux, hl] using ih true
      | true =>
        have hc : c = '\n' ∨ c = '\r' ∨ c = ' ' ∨ c = ' ' := by
          simpa [isLineTerm, or_assoc] using hl
        have hcb : (c == '•') = false := by
          rcases hc with rfl | rfl | rfl | rfl <;> decide
        simp only [removeBulletAux, hl, if_true, noBullet, List.all_cons, hcb,
          Bool.not_false, Bool.true_and]
        simpa [noBullet] using ih false
    | false =>
      cases hb : (c == '•') with
      | true => simpa [removeBulletAux, hb] using ih true
      | false =>
        simp only [removeBulletAux, hb, Bool.false_eq_true, if_false, noBullet,
          List.all_cons, Bool.not_false, Bool.true_and]
        simpa [noBullet] using ih false

theorem removeBulletTail_id (cs : List Char) (h : noBullet cs = true) :
    removeBulletTail cs = cs := by
  unfold removeBulletTail
  induction cs with
  | nil => rfl
  | cons c cs ih =>
    simp only [noBullet, List.all_cons, Bool.and_eq_true] at h
    have hcb : (c == '•') = false := by simpa using h.1
    simp only [removeBulletAux, hcb, Bool.false_eq_true, if_false]
    rw [ih (by simpa [noBullet] using h.2)]

theorem mem_insertCamelSpace (cs : List Char) (x : Char) (hx : x ∈ insertCamelSpace cs) :
    x ∈ cs ∨ x = ' ' := by
  induction cs using insertCamelSpace.induct with
  | case1 => exact absurd hx (List.not_mem_nil x)
  | case2 c => exact Or.inl (by simpa [insertCamelSpace] using hx)
  | case3 a b cs hab ih =>
    simp only [insertCamelSpace, hab, if_true] at hx
    rcases List.mem_cons.mp hx with rfl | hx1
    · exact Or.inl (by simp)
    rcases List.mem_cons.mp hx1 with rfl | hx2
    · exact Or.inr rfl
    rcases List.mem_cons.mp hx2 with rfl | hx3
    · exact Or.inl (by simp)
    · rcases ih hx3 with h | h
      · exact Or.inl (by simp [h])
      · exact Or.inr h
  | case4 a b cs hab ih =>
    simp only [insertCamelSpace, hab, Bool.false_eq_true, if_false] at hx
    rcases List.mem_cons.mp hx with rfl | hx1
    · exact Or.inl (by simp)
    · rcases ih hx1 with h | h
      · exact Or.inl (List.mem_cons_of_mem a h)
      · exact Or.inr h

theorem mem_collapseGo (flag : Bool) (cs : List Char) (x : Char)
    (hx : x ∈ collapseGo flag cs) : x ∈ cs ∨ x = ' ' := by
  induction flag, cs using collapseGo.induct with
  | case1 b => exact absurd (by simp [collapseGo] at hx) (fun h => h)
  | case2 c cs hws ih =>
    simp only [collapseGo, hws, if_true, if_pos rfl] at hx
    rcases ih hx with h | h
    · exact Or.inl (List.mem_cons_of_mem c h)
    · exact Or.inr h
  | case3 inRun c hws hnr d tail hwsd ih =>
    have hr : inRun = false := by simpa using hnr
    subst hr
    simp only [collapseGo, hws, hwsd, if_true, Bool.false_eq_true, if_false] at hx
    rcases List.mem_cons.mp hx with rfl | hx1
    · exact Or.inr rfl
    · rcases ih (by simpa [collapseGo, hwsd] using hx1) with h | h
      · exact Or.inl (List.mem_cons_of_mem c h)
      · exact Or.inr h
  | case4 inRun c hws hnr d tail hwsd ih =>
    have hr : inRun = false := by simpa using hnr
    subst hr
    have hwsd' : jsSpace d = false := by simpa using hwsd
    simp only [collapseGo, hws, hwsd', if_true, Bool.false_eq_true, if_false] at hx
    rcases List.mem_cons.mp hx with rfl | hx1
    · exact Or.inl (List.mem_cons_self _ _)
    · rcases ih (by simpa [collapseGo, hwsd'] using hx1) with h | h
      · exact Or.inl (List.mem_cons_of_mem c h)
      · exact Or.inr h
  | case5 inRun c hws hnr =>
    have hr : inRun = false := by simpa using hnr
    subst hr
    simp only [collapseGo, hws, if_true, Bool.false_eq_true, if_false] at hx
    exact Or.inl hx
  | case6 inRun c cs hws ih =>
    have hws' : jsSpace c = false := by simpa using hws
    simp only [collapseGo, hws', Bool.false_eq_true, if_false] at hx
    rcases List.mem_cons.mp hx with rfl | hx1
    · exact Or.inl (List.mem_cons_self _ _)
    · rcases ih hx1 with h | h
      · exact Or.inl (List.mem_cons_of_mem c h)
      · exact Or.inr h

theorem dropTrailWs_decomp (l : List Char) : ∃ t, l = dropTrailWs l ++ t := by
  induction l with
  | nil => exact ⟨[], rfl⟩
  | cons c cs ih =>
    rcases ih with ⟨t, ht⟩
    cases hd : dropTrailWs cs with
    | nil =>
      cases hjs : jsSpace c with
      | true => exact ⟨c :: cs, by simp [dropTrailWs, hd, hjs]⟩
      | false => exact ⟨cs, by simp [dropTrailWs, hd, hjs]⟩
    | cons d rest =>
      refine ⟨t, ?_⟩
      rw [hd] at ht
      simp only [dropTrailWs, hd, List.cons_append]
      rw [ht]
      simp

theorem mem_dropTrailWs (l : List Char) (x : Char) (hx : x ∈ dropTrailWs l) : x ∈ l := by
  rcases dropTrailWs_decomp l with ⟨t, ht⟩
  rw [ht]
  exact List.mem_append_left t hx

theorem mem_trimJs (l : List Char) (x : Char) (hx : x ∈ trimJs l) : x ∈ l := by
  unfold trimJs at hx
  exact List.dropWhile_subset jsSpace (mem_dropTrailWs _ x hx)

theorem noBullet_of_mem_subset (l l' : List Char)
    (hsub : ∀ x ∈ l', x ∈ l ∨ x = ' ') (h : noBullet l = true) : noBullet l' = true := by
  simp only [noBullet, List.all_eq_true] at h ⊢
  intro x hx
  rcases hsub x hx with hm | rfl
  · exact h x hm
  · decide

theorem dropWhile_head_false (p : Char → Bool) (l : List Char) (c : Char)
    (h : (l.dropWhile p).head? = some c) : p c = false := by
  induction l with
  | nil => simp at h
  | cons a l ih =>
    cases hp : p a with
    | true =>
      rw [List.dropWhile_cons_of_pos hp] at h
      exact ih h
    | false =>
      rw [List.dropWhile_cons_of_neg (by simp [hp])] at h
      have hca : a = c := by simpa using h
      subst hca
      exact hp

theorem head?_dropTrailWs (l : List Char) :
    dropTrailWs l = [] ∨ (dropTrailWs l).head? = l.head? := by
  cases l with
  | nil => exact Or.inl rfl
  | cons c cs =>
    cases hd : dropTrailWs cs with
    | nil =>
      cases hjs : jsSpace c with
      | true => exact Or.inl (by simp [dropTrailWs, hd, hjs])
      | false => exact Or.inr (by simp [dropTrailWs, hd, hjs])
    | cons d rest => exact Or.inr (by simp [dropTrailWs, hd])

theorem dropTrailWs_idem (l : List Char) : dropTrailWs (dropTrailWs l) = dropTrailWs l := by
  induction l with
  | nil => rfl
  | cons c cs ih =>
    cases hd : dropTrailWs cs with
    | nil =>
      cases hjs : jsSpace c with
      | true => simp [dropTrailWs, hd, hjs]
      | false => simp [dropTrailWs, hd, hjs]
    | cons d rest =>
      rw [hd] at ih
      conv_lhs => rw [dropTrailWs, hd]
      conv_lhs => rw [dropTrailWs, ih]
      conv_rhs => rw [dropTrailWs, hd]

theorem trimJs_idem (l : List Char) : trimJs (trimJs l) = trimJs l := by
  unfold trimJs
  have hdw : (dropTrailWs (l.dropWhile jsSpace)).dropWhile jsSpace
      = dropTrailWs (l.dropWhile jsSpace) := by
    cases hh : dropTrailWs (l.dropWhile jsSpace) with
    | nil => rfl
    | cons c r =>
      rcases head?_dropTrailWs (l.dropWhile jsSpace) with he | he
      · rw [he] at hh
        exact absurd hh (by simp)
      · have hc : (l.dropWhile jsSpace).head? = some c := by rw [← he, hh]; rfl
        have hcf : jsSpace c = false := dropWhile_head_false jsSpace l c hc
        exact List.dropWhile_cons_of_neg (by simp [hcf])
  rw [hdw, dropTrailWs_idem]

/-- No adjacent lowercase-uppercase pair occurs (the fourth replacement finds
no match). -/
def camelFree : List Char → Bool
  | a :: b :: r => !(isLowerAZ a && isUpperAZ b) && camelFree (b :: r)
  | _ => true

theorem camelFree_tail (c : Char) (cs : List Char) (h : camelFree (c :: cs) = true) :
    camelFree cs = true := by
  cases cs with
  | nil => rfl
  | cons b r =>
    simp only [camelFree, Bool.and_eq_true] at h
    exact h.2

theorem camelFree_cons (x : Char) (l : List Char) (hl : camelFree l = true)
    (hx : ∀ y, l.head? = some y → (isLowerAZ x && isUpperAZ y) = false) :
    camelFree (x :: l) = true := by
  cases l with
  | nil => rfl
  | cons y r =>
    simp only [camelFree, Bool.and_eq_true]
    exact ⟨by simp [hx y rfl], hl⟩

theorem not_lower_of_upper (c : Char) (h : isUpperAZ c = true) : isLowerAZ c = false := by
  unfold isUpperAZ at h
  unfold isLowerAZ
  rw [Bool.and_eq_true] at h
  have h2' : c ≤ 'Z' := of_decide_eq_true h.2
  have hna : ¬ ('a' ≤ c) := fun hc => absurd (le_trans hc h2') (by decide)
  simp [hna]

theorem head?_insertCamelSpace (l : List Char) :
    (insertCamelSpace l).head? = l.head? := by
  induction l using insertCamelSpace.induct with
  | case1 => rfl
  | case2 c => rfl
  | case3 a b cs hab ih => simp [insertCamelSpace, hab]
  | case4 a b cs hab ih => simp [insertCamelSpace, hab]

theorem camelFree_insertCamelSpace (cs : List Char) :
    camelFree (insertCamelSpace cs) = true := by
  induction cs using insertCamelSpace.induct with
  | case1 => rfl
  | case2 c => rfl
  | case3 a b cs hab ih =>
    have hab' : (isLowerAZ a && isUpperAZ b) = true := hab
    have hupper : isUpperAZ b = true := by
      have hx := hab'
      rw [Bool.and_eq_true] at hx
      exact hx.2
    have h3 : camelFree (b :: insertCamelSpace cs) = true := by
      refine camelFree_cons b _ ih ?_
      intro y hy
      rw [not_lower_of_upper b hupper, Bool.false_and]
    have h2 : camelFree (' ' :: b :: insertCamelSpace cs) = true := by
      refine camelFree_cons ' ' _ h3 ?_
      intro y hy
      have hyb : b = y := by simpa using hy
      subst hyb
      rw [show isLowerAZ ' ' = false from by decide, Bool.false_and]
    have h1 : camelFree (a :: ' ' :: b :: insertCamelSpace cs) = true := by
      refine camelFree_cons a _ h2 ?_
      intro y hy
      have hys : ' ' = y := by simpa using hy
      subst hys
      rw [show isUpperAZ ' ' = false from by decide, Bool.and_false]
    rw [show insertCamelSpace (a :: b :: cs) = a :: ' ' :: b :: insertCamelSpace cs from by
      simp [insertCamelSpace, hab]]
    exact h1
  | case4 a b cs hab ih =>
    have hab' : (isLowerAZ a && isUpperAZ b) = false := by simpa using hab
    have h1 : camelFree (a :: insertCamelSpace (b :: cs)) = true := by
      refine camelFree_cons a _ ih ?_
      intro y hy
      rw [head?_insertCamelSpace] at hy
      have hyb : b = y := by simpa using hy
      subst hyb
      exact hab'
    rw [show insertCamelSpace (a :: b :: cs) = a :: insertCamelSpace (b :: cs) from by
      simp [insertCamelSpace, hab']]
    exact h1

theorem insertCamelSpace_id (cs : List Char) (h : camelFree cs = true) :
    insertCamelSpace cs = cs := by
  induction cs using insertCamelSpace.induct with
  | case1 => rfl
  | case2 c => rfl
  | case3 a b cs hab ih =>
    exfalso
    simp only [camelFree, Bool.and_eq_true] at h
    have h1 := h.1
    rw [show (isLowerAZ a && isUpperAZ b) = true from hab] at h1
    simp at h1
  | case4 a b cs hab ih =>
    have hab' : (isLowerAZ a && isUpperAZ b) = false := by simpa using hab
    have ht : camelFree (b :: cs) = true := camelFree_tail a _ h
    rw [show insertCamelSpace (a :: b :: cs) = a :: insertCamelSpace (b :: cs) from by
      simp [insertCamelSpace, hab']]
    rw [ih ht]

theorem camelFree_append_left (l t : List Char) (h : camelFree (l ++ t) = true) :
    camelFree l = true := by
  induction l with
  | nil => rfl
  | cons a l ih =>
    cases hl : l with
    | nil => rfl
    | cons b r =>
      subst hl
      rw [List.cons_append, List.cons_append] at h
      simp only [camelFree, Bool.and_eq_true] at h ⊢
      refine ⟨h.1, ?_⟩
      exact ih (by rw [List.cons_append]; exact h.2)

theorem camelFree_dropWhile (p : Char → Bool) (l : List Char) (h : camelFree l = true) :
    camelFree (l.dropWhile p) = true := by
  induction l with
  | nil => exact h
  | cons c cs ih =>
    cases hp : p c with
    | true =>
      rw [List.dropWhile_cons_of_pos hp]
      exact ih (camelFree_tail c cs h)
    | false =>
      rw [List.dropWhile_cons_of_neg (by simp [hp])]
      exact h

theorem camelFree_trimJs (l : List Char) (h : camelFree l = true) :
    camelFree (trimJs l) = true := by
  unfold trimJs
  rcases dropTrailWs_decomp (l.dropWhile jsSpace) with ⟨t, ht⟩
  refine camelFree_append_left _ t ?_
  rw [← ht]
  exact camelFree_dropWhile jsSpace l h

/-- No two adjacent whitespace characters occur (the fifth replacement finds
no match). -/
def noWsRun : List Char → Bool
  | a :: b :: r => !(jsSpace a && jsSpace b) && noWsRun (b :: r)
  | _ => true

theorem noWsRun_tail (c : Char) (cs : List Char) (h : noWsRun (c :: cs) = true) :
    noWsRun cs = true := by
  cases cs with
  | nil => rfl
  | cons b r =>
    simp only [noWsRun, Bool.and_eq_true] at h
    exact h.2

theorem noWsRun_cons (x : Char) (l : List Char) (hl : noWsRun l = true)
    (hx : ∀ y, l.head? = some y → (jsSpace x && jsSpace y) = false) :
    noWsRun (x :: l) = true := by
  cases l with
  | nil => rfl
  | cons y r =>
    simp only [noWsRun, Bool.and_eq_true]
    exact ⟨by simp [hx y rfl], hl⟩

theorem head_collapseGo_true (cs : List Char) (x : Char)
    (hx : (collapseGo true cs).head? = some x) : jsSpace x = false := by
  induction cs with
  | nil => simp [collapseGo] at hx
  | cons c cs ih =>
    cases hws : jsSpace c with
    | true =>
      rw [show collapseGo true (c :: cs) = collapseGo true cs from by
        simp [collapseGo, hws]] at hx
      exact ih hx
    | false =>
      rw [show collapseGo true (c :: cs) = c :: collapseGo false cs from by
        simp [collapseGo, hws]] at hx
      have hxc : c = x := by simpa using hx
      subst hxc
      exact hws

theorem head_collapseGo_false_nonws (c : Char) (cs : List Char) (hws : jsSpace c = false) :
    (collapseGo false (c :: cs)).head? = some c := by
  simp [collapseGo, hws]

theorem noWsRun_collapseGo (flag : Bool) (cs : List Char) :
    noWsRun (collapseGo flag cs) = true := by
  induction flag, cs using collapseGo.induct with
  | case1 b => cases b <;> rfl
  | case2 c cs hws ih =>
    rw [show collapseGo true (c :: cs) = collapseGo true cs from by simp [collapseGo, hws]]
    exact ih
  | case3 inRun c hws hnr d tail hwsd ih =>
    have hr : inRun = false := by simpa using hnr
    subst hr
    rw [show collapseGo false (c :: d :: tail) = ' ' :: collapseGo true (d :: tail) from by
      simp [collapseGo, hws, hwsd]]
    refine noWsRun_cons ' ' _ ih ?_
    intro y hy
    rw [head_collapseGo_true _ y hy, Bool.and_false]
  | case4 inRun c hws hnr d tail hwsd ih =>
    have hr : inRun = false := by simpa using hnr
    subst hr
    have hwsd' : jsSpace d = false := by simpa using hwsd
    rw [show collapseGo false (c :: d :: tail) = c :: collapseGo false (d :: tail) from by
      simp [collapseGo, hws, hwsd']]
    refine noWsRun_cons c _ ih ?_
    intro y hy
    rw [head_collapseGo_false_nonws d tail hwsd'] at hy
    have hyd : d = y := by simpa using hy
    subst hyd
    rw [hwsd', Bool.and_false]
  | case5 inRun c hws hnr =>
    have hr : inRun = false := by simpa using hnr
    subst hr
    rw [show collapseGo false [c] = [c] from by simp [collapseGo, hws]]
    rfl
  | case6 inRun c cs hws ih =>
    have hws' : jsSpace c = false := by simpa using hws
    have hgo : collapseGo inRun (c :: cs) = c :: collapseGo false cs := by
      cases inRun <;> simp [collapseGo, hws']
    rw [hgo]
    refine noWsRun_cons c _ ih ?_
    intro y hy
    rw [hws', Bool.false_and]

theorem collapseWs_id (cs : List Char) (h : noWsRun cs = true) : collapseWs cs = cs := by
  unfold collapseWs
  induction cs with
  | nil => rfl
  | cons c cs ih =>
    cases cs with
    | nil =>
      cases hws : jsSpace c with
      | true => simp [collapseGo, hws]
      | false => simp [collapseGo, hws]
    | cons d r =>
      have hpair : (jsSpace c && jsSpace d) = false := by
        simp only [noWsRun, Bool.and_eq_true] at h
        have h1 := h.1
        cases hcd : (jsSpace c && jsSpace d) with
        | false => rfl
        | true => rw [hcd] at h1; simp at h1
      have ht : noWsRun (d :: r) = true := noWsRun_tail c _ h
      cases hws : jsSpace c with
      | true =>
        have hwsd : jsSpace d = false := by
          rw [hws, Bool.true_and] at hpair
          exact hpair
        rw [show collapseGo false (c :: d :: r) = c :: collapseGo false (d :: r) from by
          simp [collapseGo, hws, hwsd]]
        rw [ih ht]
      | false =>
        rw [show collapseGo false (c :: d :: r) = c :: collapseGo false (d :: r) from by
          simp [collapseGo, hws]]
        rw [ih ht]

theorem noWsRun_append_left (l t : List Char) (h : noWsRun (l ++ t) = true) :
    noWsRun l = true := by
  induction l with
  | nil => rfl
  | cons a l ih =>
    cases hl : l with
    | nil => rfl
    | cons b r =>
      subst hl
      rw [List.cons_append, List.cons_append] at h
      simp only [noWsRun, Bool.and_eq_true] at h ⊢
      refine ⟨h.1, ?_⟩
      exact ih (by rw [List.cons_append]; exact h.2)

theorem noWsRun_dropWhile (p : Char → Bool) (l : List Char) (h : noWsRun l = true) :
    noWsRun (l.dropWhile p) = true := by
  induction l with
  | nil => exact h
  | cons c cs ih =>
    cases hp : p c with
    | true =>
      rw [List.dropWhile_cons_of_pos hp]
      exact ih (noWsRun_tail c cs h)
    | false =>
      rw [List.dropWhile_cons_of_neg (by simp [hp])]
      exact h

theorem noWsRun_trimJs (l : List Char) (h : noWsRun l = true) :
    noWsRun (trimJs l) = true := by
  unfold trimJs
  rcases dropTrailWs_decomp (l.dropWhile jsSpace) with ⟨t, ht⟩
  refine noWsRun_append_left _ t ?_
  rw [← ht]
  exact noWsRun_dropWhile jsSpace l h

theorem head_collapseGo_false (e : Char) (r : List Char) :
    (collapseGo false (e :: r)).head? = some e ∨
      (collapseGo false (e :: r)).head? = some ' ' := by
  cases hws : jsSpace e with
  | false => exact Or.inl (head_collapseGo_false_nonws e r hws)
  | true =>
    cases r with
    | nil => exact Or.inl (by simp [collapseGo, hws])
    | cons d rr =>
      cases hwsd : jsSpace d with
      | true => exact Or.inr (by simp [collapseGo, hws, hwsd])
      | false => exact Or.inl (by simp [collapseGo, hws, hwsd])

theorem camelFree_collapseGo (flag : Bool) (cs : List Char) (h : camelFree cs = true) :
    camelFree (collapseGo flag cs) = true := by
  induction flag, cs using collapseGo.induct with
  | case1 b => cases b <;> rfl
  | case2 c cs hws ih =>
    rw [show collapseGo true (c :: cs) = collapseGo true cs from by simp [collapseGo, hws]]
    exact ih (camelFree_tail c cs h)
  | case3 inRun c hws hnr d tail hwsd ih =>
    have hr : inRun = false := by simpa using hnr
    subst hr
    rw [show collapseGo false (c :: d :: tail) = ' ' :: collapseGo true (d :: tail) from by
      simp [collapseGo, hws, hwsd]]
    refine camelFree_cons ' ' _ (ih (camelFree_tail c _ h)) ?_
    intro y hy
    rw [show isLowerAZ ' ' = false from by decide, Bool.false_and]
  | case4 inRun c hws hnr d tail hwsd ih =>
    have hr : inRun = false := by simpa using hnr
    subst hr
    have hwsd' : jsSpace d = false := by simpa using hwsd
    rw [show collapseGo false (c :: d :: tail) = c :: collapseGo false (d :: tail) from by
      simp [collapseGo, hws, hwsd']]
    refine camelFree_cons c _ (ih (camelFree_tail c _ h)) ?_
    intro y hy
    rw [head_collapseGo_false_nonws d tail hwsd'] at hy
    have hyd : d = y := by simpa using hy
    subst hyd
    simp only [camelFree, Bool.and_eq_true] at h
    have h1 := h.1
    cases hcd : (isLowerAZ c && isUpperAZ d) with
    | false => rfl
    | true => rw [hcd] at h1; simp at h1
  | case5 inRun c hws hnr =>
    have hr : inRun = false := by simpa using hnr
    subst hr
    rw [show collapseGo false [c] = [c] from by simp [collapseGo, hws]]
    rfl
  | case6 inRun c cs hws ih =>
    have hws' : jsSpace c = false := by simpa using hws
    have hgo : collapseGo inRun (c :: cs) = c :: collapseGo false cs := by
      cases inRun <;> simp [collapseGo, hws']
    rw [hgo]
    refine camelFree_cons c _ (ih (camelFree_tail c cs h)) ?_
    intro y hy
    cases cs with
    | nil => simp [collapseGo] at hy
    | cons e r =>
      rcases head_collapseGo_false e r with he | he
      · rw [he] at hy
        have hye : e = y := by simpa using hy
        subst hye
        simp only [camelFree, Bool.and_eq_true] at h
        have h1 := h.1
        cases hce : (isLowerAZ c && isUpperAZ e) with
        | false => rfl
        | true => rw [hce] at h1; simp at h1
      · rw [he] at hy
        have hye : (' ' : Char) = y := by simpa using hy
        subst hye
        rw [show isUpperAZ ' ' = false from by decide, Bool.and_false]

theorem cleanChars_idem (cs : List Char) (h : monthFree (cleanChars cs) = true) :
    cleanChars (cleanChars cs) = cleanChars cs := by
  have hb : noBullet (cleanChars cs) = true := by
    unfold cleanChars
    refine noBullet_of_mem_subset _ _ (fun x hx => Or.inl (mem_trimJs _ x hx)) ?_
    refine noBullet_of_mem_subset _ _ (fun x hx => mem_collapseGo false _ x hx) ?_
    refine noBullet_of_mem_subset _ _ (fun x hx => mem_insertCamelSpace _ x hx) ?_
    exact noBullet_removeBulletAux false _
  have hcf : camelFree (cleanChars cs) = true := by
    unfold cleanChars
    exact camelFree_trimJs _ (camelFree_collapseGo false _ (camelFree_insertCamelSpace _))
  have hwr : noWsRun (cleanChars cs) = true := by
    unfold cleanChars
    exact noWsRun_trimJs _ (noWsRun_collapseGo false _)
  conv_lhs => rw [cleanChars]
  rw [attachSpaceFirst_id _ h, removeDates_id _ h, removeBulletTail_id _ hb,
    insertCamelSpace_id _ hcf, collapseWs_id _ hwr]
  exact trimJs_idem _

/-- C3 (amended): `cleanMovieTitle` is idempotent on every input whose cleaned
form contains no month-name abbreviation (case-insensitively); in general a
second application can strip further date fragments uncovered by the first
pass (see the counterexample), so idempotence holds exactly on such
date-free results. -/
theorem cleanMovieTitle_idempotent_of_monthFree_output (s : String)
    (h : monthFree (cleanMovieTitle s).data = true) :
    cleanMovieTitle (cleanMovieTitle s) = cleanMovieTitle s := by
  unfold cleanMovieTitle
  apply congrArg String.mk
  exact cleanChars_idem s.data h

/-- Witness for C3 (amended): the spec's own bullet example has a month-free
cleaned form, so cleaning it twice is the same as cleaning it once. -/
theorem cleanMovieTitle_idempotent_witness :
    cleanMovieTitle (cleanMovieTitle "Good•Movie") = cleanMovieTitle "Good•Movie" :=
  cleanMovieTitle_idempotent_of_monthFree_output "Good•Movie" (by decide)
